import Mathlib

/-!
Verification of the pre-emit ASM analysis pass
(`llvm/lib/CodeGen/AsmAnalysis.cpp`): a shallow embedding of the
loop-density reporter (`reportLoop`) and the fetch-group partitioning
code in `AsmAnalysis::runOnMachineFunction`, with theorems about the
emitted density records, the emission order, and the fetch-group chain
walk.

The machine-IR entities the pass reads (instructions, basic blocks,
loops) are external to the extracted source; they are embedded here with
exactly the structure the pass consumes: an instruction's debug /
pseudo-probe classification, its terminator classification, and its
optional debug location; a block's ordered instruction list and ordered
successor list; a loop's header block, member blocks, latch blocks and
sub-loops.
-/

/-- A machine instruction, as consumed by the pass: its `isDebugInstr`
and `isPseudoProbe` classification, its `isTerminator` classification,
and its optional source location (`getDebugLoc`, `none` when the
location is absent). Locations are identified by a `Nat` tag. -/
structure Instr where
  isDebugInstr : Bool
  isPseudoProbe : Bool
  isTerminator : Bool
  debugLoc : Option Nat
deriving DecidableEq, Repr

/-- A machine basic block: its ordered instruction list and its ordered
successor list. Successors name other blocks by their index in the
enclosing function's block list; the last entry of `succs` is the
"last-listed" successor the fetch-group walk follows. -/
structure BasicBlock where
  insts : List Instr
  succs : List Nat
deriving DecidableEq, Repr

/-- Modelled from the spec: `MachineBasicBlock::terminators()` is not
part of the extracted source. The spec describes it as the terminal
sub-sequence of control-transfer instructions at the end of the block,
so the model returns the maximal all-terminator suffix of the block's
instruction list. -/
def terminators (b : BasicBlock) : List Instr :=
  (b.insts.reverse.takeWhile (fun mi => mi.isTerminator)).reverse

/-- A machine loop node: header block, member blocks, latch blocks, and
the list of direct sub-loops. Loops form a forest; the constructor
nests sub-loops structurally. -/
inductive MLoop : Type where
  | mk : BasicBlock → List BasicBlock → List BasicBlock → List MLoop → MLoop

/-- Header block of a loop (`MachineLoop::getHeader`). -/
def MLoop.header : MLoop → BasicBlock
  | .mk h _ _ _ => h

/-- Member blocks of a loop; `getNumBlocks` is the length of this list. -/
def MLoop.blocks : MLoop → List BasicBlock
  | .mk _ bs _ _ => bs

/-- Latch blocks of a loop: member blocks with a back edge to the header. -/
def MLoop.latches : MLoop → List BasicBlock
  | .mk _ _ ls _ => ls

/-- Direct sub-loops of a loop, in the order the loop info enumerates
them (the order the `for (auto *SubL : *L)` loop visits them). -/
def MLoop.subLoops : MLoop → List MLoop
  | .mk _ _ _ subs => subs

/-- Modelled from the spec: `MachineLoop::getLoopLatch` is provided by
the loop-forest analysis, which is outside the extracted source. The
spec says the reporter scans the first latch's terminators whenever the
loop has one or more latch blocks, so the model returns the first latch
block, if any. -/
def getLoopLatch (L : MLoop) : Option BasicBlock :=
  L.latches.head?

/-- An instruction survives the header scan unless it is a debug
instruction or a pseudo-probe (the `continue` in `reportLoop`). -/
def qualifies (mi : Instr) : Bool :=
  !(mi.isDebugInstr || mi.isPseudoProbe)

/-- Candidate anchor from the header scan: the first instruction of the
header that is not skipped (`if (!AnchorMI) AnchorMI = &MI`). -/
def headerAnchor (insts : List Instr) : Option Instr :=
  insts.find? qualifies

/-- The `numInsts` counter of the header scan: the number of header
instructions that are not skipped (`numInsts++`). -/
def headerCount (insts : List Instr) : Nat :=
  (insts.filter qualifies).length

/-- Anchor candidate from the latch scan: the first terminator of the
loop latch that carries a debug location
(`if (MI.getDebugLoc()) { AnchorMI = &MI; break; }`). -/
def latchAnchor (L : MLoop) : Option Instr :=
  match getLoopLatch L with
  | some latch => (terminators latch).find? (fun mi => mi.debugLoc.isSome)
  | none => none

/-- The final `AnchorMI`: the latch scan's hit overwrites the header
candidate when it exists; otherwise the header candidate stands. -/
def loopAnchor (L : MLoop) : Option Instr :=
  match latchAnchor L with
  | some t => some t
  | none => headerAnchor L.header.insts

/-- The fetch width `MW` of `reportLoop` (`static const unsigned MW=10`). -/
def MW : Nat := 10

/-- The bubble count emitted by `reportLoop`:
`(numInsts % MW) ? MW - (numInsts % MW) : 0`. -/
def bubblesOf (numInsts : Nat) : Nat :=
  if numInsts % MW ≠ 0 then MW - numInsts % MW else 0

/-- The payload of one emitted loop remark: the named values
`NumBlocks`, `NumInsts`, `Bubbles`, `NumSubLoops` and the anchor's debug
location (`AnchorMI->getDebugLoc()`) the remark is attributed to. -/
structure DensityRecord where
  numBlocks : Nat
  numInsts : Nat
  bubbles : Nat
  numSubLoops : Nat
  anchorLoc : Option Nat
deriving DecidableEq, Repr

/-- The record `reportLoop` emits for one loop, `none` when no anchor
instruction was found (`if (AnchorMI)` fails and nothing is emitted):
block count, qualifying-header-instruction count, bubble count,
direct-sub-loop count, anchor location. -/
def densityRecord (L : MLoop) : Option DensityRecord :=
  match loopAnchor L with
  | none => none
  | some a =>
      some { numBlocks := L.blocks.length,
             numInsts := headerCount L.header.insts,
             bubbles := bubblesOf (headerCount L.header.insts),
             numSubLoops := L.subLoops.length,
             anchorLoc := a.debugLoc }

mutual

/-- Emission trace of `reportLoop(L, NestLevel, ORE)`: first the records
of the sub-loops (the recursive calls with `NestLevel+1` happen before
the current loop's header/latch processing), then the current loop's
record when an anchor was found. The nest level is threaded exactly as
in the source; it is used only by debug logging and the recursion. -/
def reportLoop : MLoop → Nat → List DensityRecord
  | .mk h bs ls subs, n =>
      reportLoops subs (n + 1) ++ (densityRecord (.mk h bs ls subs)).toList

/-- Records emitted by the `for (auto *SubL : *L)` loop: each sub-loop
in order, at the given nest level. -/
def reportLoops : List MLoop → Nat → List DensityRecord
  | [], _ => []
  | L :: Ls, n => reportLoop L n ++ reportLoops Ls n

end

mutual

/-- Instrumented emission trace: the same recursion as `reportLoop`,
additionally tagging each emitted record with the `NestLevel` argument
in force at its emission and with the loop it was emitted for. Erasing
the tags recovers `reportLoop` (`reportLoopFull_erase`). -/
def reportLoopFull : MLoop → Nat → List (Nat × MLoop × DensityRecord)
  | .mk h bs ls subs, n =>
      reportLoopsFull subs (n + 1) ++
        ((densityRecord (.mk h bs ls subs)).map
          (fun r => (n, MLoop.mk h bs ls subs, r))).toList

/-- Instrumented emission trace of a list of sub-loops in order. -/
def reportLoopsFull : List MLoop → Nat → List (Nat × MLoop × DensityRecord)
  | [], _ => []
  | L :: Ls, n => reportLoopFull L n ++ reportLoopsFull Ls n

end

/-- Level-and-record projection of the instrumented trace. -/
def reportAnn (L : MLoop) (n : Nat) : List (Nat × DensityRecord) :=
  (reportLoopFull L n).map (fun e => (e.1, e.2.2))

mutual

/-- Post-order enumeration of a loop's subtree paired with forest
depths: sub-loops first at depth `d + 1`, then the loop itself at depth
`d`. Invoked at `d = 0` for a root loop, this pairs every loop of the
subtree with its depth in the loop forest. -/
def postorderAnn : MLoop → Nat → List (Nat × MLoop)
  | .mk h bs ls subs, d =>
      postorderAnnList subs (d + 1) ++ [(d, MLoop.mk h bs ls subs)]

/-- Post-order enumeration of a list of loops, all at depth `d`. -/
def postorderAnnList : List MLoop → Nat → List (Nat × MLoop)
  | [], _ => []
  | L :: Ls, d => postorderAnn L d ++ postorderAnnList Ls d

end

mutual

/-- Number of loops in a loop's subtree: the loop itself plus all
transitively nested descendant loops. -/
def totalLoops : MLoop → Nat
  | .mk _ _ _ subs => 1 + totalLoopsList subs

/-- Number of loops in the subtrees of a list of loops. -/
def totalLoopsList : List MLoop → Nat
  | [] => 0
  | L :: Ls => totalLoops L + totalLoopsList Ls

end

mutual

/-- Number of loops in a loop's subtree that resolve an anchor
instruction (and hence get a record emitted). -/
def anchoredLoops : MLoop → Nat
  | .mk h bs ls subs =>
      anchoredLoopsList subs +
        (if (densityRecord (.mk h bs ls subs)).isSome then 1 else 0)

/-- Number of anchor-resolving loops in the subtrees of a list of loops. -/
def anchoredLoopsList : List MLoop → Nat
  | [] => 0
  | L :: Ls => anchoredLoops L + anchoredLoopsList Ls

end

/-- A machine function, as the pass consumes it: the ordered block list
and the top-level loops of the loop forest (`MachineLoopInfo`). -/
structure MachineFunction where
  blocks : List BasicBlock
  loops : List MLoop

/-- A remark sent to the optimization-remark emitter: either a per-loop
density record (`"LoopInfo2"`), or the function-level average
fetch-group-size remark (`"AsmA"`, carrying the `Sizes` and `NumFGs`
totals that determine `AvgSize`). -/
inductive Remark : Type where
  | density : DensityRecord → Remark
  | fnAvg : Nat → Nat → Remark
deriving DecidableEq, Repr

/-- Discriminator: is this remark a per-loop density record? -/
def Remark.isDensity : Remark → Bool
  | .density _ => true
  | .fnAvg _ _ => false

/-- The entry point `AsmAnalysis::runOnMachineFunction`: it runs
`reportLoop(L, 0, &ORE)` on every top-level loop and then executes
`return false;`. Everything after that `return` (the fetch-group
partitioning code and its `ORE.emit` of the `"AsmA"` remark) is
unreachable and therefore contributes nothing to the returned emission
trace; that dead code is modelled separately as `fetchGroupAnalysis`
below. The returned pair is the emission trace and the function's
return value. -/
def runOnMachineFunction (MF : MachineFunction) : List Remark × Bool :=
  ((reportLoops MF.loops 0).map Remark.density, false)

/-- A block with no instructions and no successors, used as the default
when a successor index does not name a block of the function (a
well-formed function has no such index). -/
def emptyBB : BasicBlock := ⟨[], []⟩

/-- Block of a function at a given index. -/
def blockAt (MF : MachineFunction) (i : Nat) : BasicBlock :=
  MF.blocks.getD i emptyBB

/-- Modelled from the spec: `llvm::divideCeil` is not part of the
extracted source; the spec calls it ceiling division. -/
def divideCeil (n d : Nat) : Nat := (n + d - 1) / d

/-- Modelled from the spec: predecessor lists are maintained by the
external CFG representation. Block `i`'s predecessor list holds, for
every block `p` of the function in order and every entry of `p`'s
successor list that names `i`, one entry `p` (in a well-formed function
successor lists have no duplicates, so this is one entry per
predecessor edge). `pred_size()` is the length of this list. -/
def predMult (MF : MachineFunction) (i : Nat) : List Nat :=
  (List.range MF.blocks.length).flatMap
    (fun p => ((blockAt MF p).succs.filter (fun s => s == i)).map (fun _ => p))

/-- The `continue` test of the fetch-group loop: block `i` does not
start a new fetch group when it has exactly one predecessor `p` and `i`
is `p`'s last-listed successor
(`MBB.pred_size() == 1 && *std::prev((*MBB.pred_begin())->succ_end()) == &MBB`). -/
def skipAsGroupStart (MF : MachineFunction) (i : Nat) : Bool :=
  match predMult MF i with
  | [p] => (blockAt MF p).succs.getLast? == some i
  | _ => false

/-- One fetch-group chain walk (the `while (true)` loop), with explicit
fuel: stop when the current block is already in the per-chain visited
set `Seen` (`if (!Seen.insert(Curr).second) break`), otherwise mark it
visited, add its instruction count to `Size`, stop if it has no
successors, and otherwise advance to its last-listed successor
(`Curr = *std::prev(Curr->succ_end())`). Returns the accumulated size
and the visited set (most recently visited first), or `none` when the
fuel runs out before the walk stops; `chainWalk_total_aux` shows fuel
`MF.blocks.length + 1` always suffices from an empty visited set. -/
def chainWalk (MF : MachineFunction) : Nat → List Nat → Nat → Nat → Option (Nat × List Nat)
  | 0, _, _, _ => none
  | fuel + 1, seen, curr, size =>
      if curr ∈ seen then some (size, seen)
      else
        let size' := size + (blockAt MF curr).insts.length
        match (blockAt MF curr).succs.getLast? with
        | none => some (size', curr :: seen)
        | some next => chainWalk MF fuel (curr :: seen) next size'

/-- Result of the fetch-group partitioning code: the sizes of the
groups in formation order, and the two accumulators `NumFGs`
(`+= divideCeil(Size, 16)`) and `Sizes` (`+= Size`). -/
structure FGResult where
  groupSizes : List Nat
  numFGs : Nat
  sizes : Nat
deriving DecidableEq, Repr

/-- The fetch-group partitioning code of `runOnMachineFunction` (the
part after `return false;`, modelled here in isolation): every block in
function order that is not absorbed into its predecessor's chain starts
a new group, whose size is accumulated by `chainWalk` from a fresh
visited set. -/
def fetchGroupAnalysis (MF : MachineFunction) : FGResult :=
  (List.range MF.blocks.length).foldl
    (fun acc i =>
      if skipAsGroupStart MF i then acc
      else
        let sz := match chainWalk MF (MF.blocks.length + 1) [] i 0 with
          | some (s, _) => s
          | none => 0
        { groupSizes := acc.groupSizes ++ [sz],
          numFGs := acc.numFGs + divideCeil sz 16,
          sizes := acc.sizes + sz })
    ⟨[], 0, 0⟩

/-- An ordinary (non-debug, non-pseudo-probe, non-terminator)
instruction with the given location. -/
def mkInstr (loc : Option Nat) : Instr := ⟨false, false, false, loc⟩

/-- A debug instruction (skipped by the header scan). -/
def dbgInstr : Instr := ⟨true, false, false, none⟩

/-- A terminator instruction with the given location. -/
def termInstr (loc : Option Nat) : Instr := ⟨false, false, true, loc⟩

/-- Header block with twelve ordinary instructions at location 7. -/
def c1Block : BasicBlock := ⟨List.replicate 12 (mkInstr (some 7)), []⟩

/-- Loop whose header holds twelve qualifying instructions. -/
def c1Loop : MLoop := .mk c1Block [c1Block] [] []

/-- The record `reportLoop` emits for `c1Loop`. -/
def c1Rec : DensityRecord := ⟨1, 12, 8, 0, some 7⟩

/-- Header block with one located ordinary instruction (location 1). -/
def c2Header : BasicBlock := ⟨[mkInstr (some 1)], []⟩

/-- Latch block whose terminator carries location 2. -/
def c2Latch : BasicBlock := ⟨[termInstr (some 2)], []⟩

/-- Loop with a located header instruction and a located latch
terminator: the latter must win the anchor. -/
def c2Loop : MLoop := .mk c2Header [c2Header, c2Latch] [c2Latch] []

/-- Block holding only a debug instruction. -/
def c3Block : BasicBlock := ⟨[dbgInstr], []⟩

/-- Loop with no qualifying header instruction, no latch and no
sub-loop: no anchor resolves, so nothing is emitted for it. -/
def c3Loop : MLoop := .mk c3Block [c3Block] [] []

/-- Block with one ordinary instruction at location 5. -/
def c4Block : BasicBlock := ⟨[mkInstr (some 5)], []⟩

/-- Anchor-less grandchild loop (emits nothing). -/
def c4Grand : MLoop := .mk c3Block [c3Block] [] []

/-- Inner loop at forest depth 1; its record coincides with the outer
loop's record. -/
def c4Inner : MLoop := .mk c4Block [c4Block] [] [c4Grand]

/-- Outer loop at forest depth 0. -/
def c4Outer : MLoop := .mk c4Block [c4Block] [] [c4Inner]

/-- The one record value both `c4Outer` and `c4Inner` emit. -/
def c4Rec : DensityRecord := ⟨1, 1, 9, 1, some 5⟩

/-- One-block function whose block's last-listed successor is itself. -/
def c7MF : MachineFunction := ⟨[⟨List.replicate 3 (mkInstr none), [0]⟩], []⟩

/-- A ten-instruction block with the given successor list. -/
def c9Blk (ss : List Nat) : BasicBlock := ⟨List.replicate 10 (mkInstr none), ss⟩

/-- Four-block straight-line function: each non-entry block has exactly
one predecessor and is that predecessor's last-listed successor; forty
instructions in total. -/
def c9MF : MachineFunction := ⟨[c9Blk [1], c9Blk [2], c9Blk [3], c9Blk []], []⟩

/-- Header block holding only a debug instruction. -/
def c10Header : BasicBlock := ⟨[dbgInstr], []⟩

/-- Latch block whose terminator carries location 9. -/
def c10Latch : BasicBlock := ⟨[termInstr (some 9)], []⟩

/-- Loop with zero qualifying header instructions and a unique latch
whose terminator is located. -/
def c10Loop : MLoop := .mk c10Header [c10Header, c10Latch] [c10Latch] []

/-- A loop's own record, when emitted, is part of its emission trace. -/
theorem self_mem_reportLoop (L : MLoop) (n : Nat) (r : DensityRecord)
    (h : densityRecord L = some r) : r ∈ reportLoop L n := by
  cases L with
  | mk hd bs ls subs => simp [reportLoop, h]

mutual

/-- Every record in a loop's emission trace is the record of some loop. -/
theorem mem_reportLoop_exists : ∀ (L : MLoop) (n : Nat) (r : DensityRecord),
    r ∈ reportLoop L n → ∃ M : MLoop, densityRecord M = some r
  | .mk hd bs ls subs, n, r => by
    intro hr
    simp only [reportLoop] at hr
    rcases List.mem_append.mp hr with hl | hr2
    · exact mem_reportLoops_exists subs (n + 1) r hl
    · exact ⟨.mk hd bs ls subs, Option.mem_def.mp (Option.mem_toList.mp hr2)⟩

/-- Every record in a loop list's emission trace is the record of some loop. -/
theorem mem_reportLoops_exists : ∀ (Ls : List MLoop) (n : Nat) (r : DensityRecord),
    r ∈ reportLoops Ls n → ∃ M : MLoop, densityRecord M = some r
  | [], n, r => by intro hr; simp [reportLoops] at hr
  | L :: Ls, n, r => by
    intro hr
    simp only [reportLoops] at hr
    rcases List.mem_append.mp hr with hl | hr2
    · exact mem_reportLoop_exists L n r hl
    · exact mem_reportLoops_exists Ls n r hr2

end

mutual

/-- Erasing the level and loop tags of the instrumented trace recovers
the emission trace of `reportLoop`. -/
theorem reportLoopFull_erase : ∀ (L : MLoop) (n : Nat),
    (reportLoopFull L n).map (fun e => e.2.2) = reportLoop L n
  | .mk hd bs ls subs, n => by
    simp only [reportLoopFull, reportLoop, List.map_append]
    rw [reportLoopsFull_erase subs (n + 1)]
    cases densityRecord (MLoop.mk hd bs ls subs) <;> simp

/-- Erasure for the trace of a loop list. -/
theorem reportLoopsFull_erase : ∀ (Ls : List MLoop) (n : Nat),
    (reportLoopsFull Ls n).map (fun e => e.2.2) = reportLoops Ls n
  | [], n => by simp [reportLoopsFull, reportLoops]
  | L :: Ls, n => by
    simp only [reportLoopsFull, reportLoops, List.map_append]
    rw [reportLoopFull_erase L n, reportLoopsFull_erase Ls n]

end

mutual

/-- The emission trace has one record per anchor-resolving loop of the
subtree. -/
theorem length_reportLoop : ∀ (L : MLoop) (n : Nat),
    (reportLoop L n).length = anchoredLoops L
  | .mk hd bs ls subs, n => by
    simp only [reportLoop, anchoredLoops, List.length_append]
    rw [length_reportLoops subs (n + 1)]
    cases densityRecord (MLoop.mk hd bs ls subs) <;> simp

/-- Trace length for a loop list. -/
theorem length_reportLoops : ∀ (Ls : List MLoop) (n : Nat),
    (reportLoops Ls n).length = anchoredLoopsList Ls
  | [], n => by simp [reportLoops, anchoredLoopsList]
  | L :: Ls, n => by
    simp only [reportLoops, anchoredLoopsList, List.length_append]
    rw [length_reportLoop L n, length_reportLoops Ls n]

end

mutual

/-- At most every loop of the subtree resolves an anchor. -/
theorem anchoredLoops_le : ∀ L : MLoop, anchoredLoops L ≤ totalLoops L
  | .mk hd bs ls subs => by
    simp only [anchoredLoops, totalLoops]
    have h1 := anchoredLoopsList_le subs
    have h2 : (if (densityRecord (MLoop.mk hd bs ls subs)).isSome then 1 else 0) ≤ 1 := by
      split <;> omega
    omega

/-- Bound for a loop list. -/
theorem anchoredLoopsList_le : ∀ Ls : List MLoop, anchoredLoopsList Ls ≤ totalLoopsList Ls
  | [] => Nat.le_refl _
  | L :: Ls => by
    simp only [anchoredLoopsList, totalLoopsList]
    have h1 := anchoredLoops_le L
    have h2 := anchoredLoopsList_le Ls
    omega

end

mutual

/-- The instrumented trace is the depth-annotated post-order loop
enumeration, filtered to the loops whose record resolves: each emitted
record's level tag is that loop's forest depth. -/
theorem reportLoopFull_postorder : ∀ (L : MLoop) (d : Nat),
    reportLoopFull L d = (postorderAnn L d).flatMap
      (fun p => ((densityRecord p.2).map (fun r => (p.1, p.2, r))).toList)
  | .mk hd bs ls subs, d => by
    simp only [reportLoopFull, postorderAnn, List.flatMap_append]
    rw [reportLoopsFull_postorder subs (d + 1)]
    simp

/-- Post-order characterization for a loop list. -/
theorem reportLoopsFull_postorder : ∀ (Ls : List MLoop) (d : Nat),
    reportLoopsFull Ls d = (postorderAnnList Ls d).flatMap
      (fun p => ((densityRecord p.2).map (fun r => (p.1, p.2, r))).toList)
  | [], d => by simp [reportLoopsFull, postorderAnnList]
  | L :: Ls, d => by
    simp only [reportLoopsFull, postorderAnnList, List.flatMap_append]
    rw [reportLoopFull_postorder L d, reportLoopsFull_postorder Ls d]

end

mutual

/-- Every entry of a loop's instrumented trace is tagged either with the
loop itself or with a structurally smaller loop (a descendant). -/
theorem mem_reportLoopFull_size : ∀ (L : MLoop) (d : Nat) (e : Nat × MLoop × DensityRecord),
    e ∈ reportLoopFull L d → e.2.1 = L ∨ sizeOf e.2.1 < sizeOf L
  | .mk hd bs ls subs, d, e => by
    intro he
    simp only [reportLoopFull] at he
    rcases List.mem_append.mp he with hl | hr
    · rcases mem_reportLoopsFull_size subs (d + 1) e hl with ⟨c, hc, hce⟩
      have hcs : sizeOf c < sizeOf (MLoop.mk hd bs ls subs) := by
        have h1 : sizeOf c < sizeOf subs := List.sizeOf_lt_of_mem hc
        have h2 : sizeOf subs < sizeOf (MLoop.mk hd bs ls subs) := by
          simp only [MLoop.mk.sizeOf_spec]
          omega
        omega
      right
      rcases hce with heq | hlt
      · rw [heq]; exact hcs
      · omega
    · left
      cases hopt : densityRecord (MLoop.mk hd bs ls subs) with
      | none => rw [hopt] at hr; simp at hr
      | some r =>
          rw [hopt] at hr
          simp at hr
          rw [hr]

/-- Every entry of a loop list's instrumented trace is tagged either
with a loop of the list or with something structurally smaller than
one. -/
theorem mem_reportLoopsFull_size : ∀ (Ls : List MLoop) (d : Nat) (e : Nat × MLoop × DensityRecord),
    e ∈ reportLoopsFull Ls d → ∃ c ∈ Ls, e.2.1 = c ∨ sizeOf e.2.1 < sizeOf c
  | [], d, e => by intro he; simp [reportLoopsFull] at he
  | L :: Ls, d, e => by
    intro he
    simp only [reportLoopsFull] at he
    rcases List.mem_append.mp he with hl | hr
    · exact ⟨L, List.mem_cons_self L Ls, mem_reportLoopFull_size L d e hl⟩
    · rcases mem_reportLoopsFull_size Ls d e hr with ⟨c, hc, hce⟩
      exact ⟨c, List.mem_cons_of_mem L hc, hce⟩

end

/-- Visiting a not-yet-visited valid block strictly shrinks the set of
valid blocks left to visit. -/
theorem filter_unvisited_shrink (n curr : Nat) (seen : List Nat)
    (hv : curr < n) (hc : curr ∉ seen) :
    ((List.range n).filter (fun j => decide (j ∉ curr :: seen))).length
      < ((List.range n).filter (fun j => decide (j ∉ seen))).length := by
  have h1 : (List.range n).filter (fun j => decide (j ∉ curr :: seen))
      = ((List.range n).filter (fun j => decide (j ∉ seen))).filter
          (fun j => decide (j ≠ curr)) := by
    rw [List.filter_filter]
    apply List.filter_congr
    intro j _
    by_cases hj1 : j = curr <;> by_cases hj2 : j ∈ seen <;>
      simp [List.mem_cons, hj1, hj2]
  rw [h1]
  apply List.length_filter_lt_length_iff_exists.mpr
  refine ⟨curr, ?_, by simp⟩
  rw [List.mem_filter]
  exact ⟨List.mem_range.mpr hv, by simp [hc]⟩

/-- Fuel exceeding the number of valid unvisited blocks suffices for the
chain walk to stop on its own, and the visited set it returns stays
duplicate-free. -/
theorem chainWalk_total_aux (MF : MachineFunction) :
    ∀ (fuel : Nat) (seen : List Nat) (curr size : Nat),
      ((List.range MF.blocks.length).filter (fun j => decide (j ∉ seen))).length < fuel →
      seen.Nodup →
      ∃ out : Nat × List Nat, chainWalk MF fuel seen curr size = some out ∧ out.2.Nodup := by
  intro fuel
  induction fuel with
  | zero => intro seen curr size h _; omega
  | succ f ih =>
    intro seen curr size hlt hnd
    by_cases hc : curr ∈ seen
    · exact ⟨(size, seen), by simp [chainWalk, hc], hnd⟩
    · have hnd2 : (curr :: seen).Nodup := List.nodup_cons.mpr ⟨hc, hnd⟩
      cases hsucc : (blockAt MF curr).succs.getLast? with
      | none =>
          exact ⟨(size + (blockAt MF curr).insts.length, curr :: seen),
            by simp [chainWalk, hc, hsucc], hnd2⟩
      | some next =>
          by_cases hv : curr < MF.blocks.length
          · have key := filter_unvisited_shrink MF.blocks.length curr seen hv hc
            obtain ⟨out, ho, hon⟩ :=
              ih (curr :: seen) next (size + (blockAt MF curr).insts.length)
                (by omega) hnd2
            refine ⟨out, ?_, hon⟩
            simp only [chainWalk, if_neg hc, hsucc]
            exact ho
          · exfalso
            have hdef : blockAt MF curr = emptyBB :=
              List.getD_eq_default MF.blocks emptyBB (by omega)
            rw [hdef] at hsucc
            simp [emptyBB] at hsucc

/-- C1: every record emitted by `reportLoop` has `bubbles = 0` when
`numInsts` is a multiple of 10, and `bubbles = 10 - (numInsts mod 10)`
with `0 < bubbles < 10` otherwise. -/
theorem c1_bubbles_formula (L : MLoop) (n : Nat) (r : DensityRecord)
    (h : r ∈ reportLoop L n) :
    (r.numInsts % 10 = 0 → r.bubbles = 0) ∧
    (r.numInsts % 10 ≠ 0 →
      r.bubbles = 10 - r.numInsts % 10 ∧ 0 < r.bubbles ∧ r.bubbles < 10) := by
  obtain ⟨M, hM⟩ := mem_reportLoop_exists L n r h
  unfold densityRecord at hM
  cases ha : loopAnchor M with
  | none => rw [ha] at hM; exact absurd hM (by simp)
  | some a =>
      rw [ha] at hM
      have hr : r = { numBlocks := M.blocks.length,
                      numInsts := headerCount M.header.insts,
                      bubbles := bubblesOf (headerCount M.header.insts),
                      numSubLoops := M.subLoops.length,
                      anchorLoc := a.debugLoc } := by
        injection hM with h2; exact h2.symm
      subst hr
      simp only [bubblesOf, MW]
      have hlt : headerCount M.header.insts % 10 < 10 := Nat.mod_lt _ (by omega)
      constructor
      · intro h0; simp [h0]
      · intro h0
        rw [if_pos h0]
        omega

/-- C1 witness: the loop with twelve qualifying header instructions
emits its record with `bubbles = 10 - 12 % 10 = 8`, strictly between
0 and 10. -/
theorem c1_bubbles_formula_witness :
    c1Rec ∈ reportLoop c1Loop 0 ∧
    (c1Rec.bubbles = 10 - c1Rec.numInsts % 10 ∧ 0 < c1Rec.bubbles ∧ c1Rec.bubbles < 10) :=
  ⟨by decide, (c1_bubbles_formula c1Loop 0 c1Rec (by decide)).2 (by decide)⟩

/-- C2: when the loop has latch blocks and the first latch's terminator
scan finds a terminator with a source location, the loop's record is
emitted and anchored at that terminator's location, overriding any
header-derived anchor. -/
theorem c2_latch_terminator_wins (L : MLoop) (n : Nat) (latch : BasicBlock) (t : Instr)
    (h1 : getLoopLatch L = some latch)
    (h2 : (terminators latch).find? (fun mi => mi.debugLoc.isSome) = some t) :
    ∃ r, densityRecord L = some r ∧ r.anchorLoc = t.debugLoc ∧ r ∈ reportLoop L n := by
  have hla : latchAnchor L = some t := by
    unfold latchAnchor
    rw [h1]
    exact h2
  have hlo : loopAnchor L = some t := by
    unfold loopAnchor
    rw [hla]
  have hrec : densityRecord L =
      some { numBlocks := L.blocks.length,
             numInsts := headerCount L.header.insts,
             bubbles := bubblesOf (headerCount L.header.insts),
             numSubLoops := L.subLoops.length,
             anchorLoc := t.debugLoc } := by
    unfold densityRecord
    rw [hlo]
  exact ⟨_, hrec, rfl, self_mem_reportLoop L n _ hrec⟩

/-- C2 witness: `c2Loop` has a located header instruction (location 1)
and a latch terminator at location 2; the emitted record is anchored at
location 2. -/
theorem c2_latch_terminator_wins_witness :
    getLoopLatch c2Loop = some c2Latch ∧
    (terminators c2Latch).find? (fun mi => mi.debugLoc.isSome) = some (termInstr (some 2)) ∧
    ∃ r, densityRecord c2Loop = some r ∧ r.anchorLoc = (termInstr (some 2)).debugLoc ∧
      r ∈ reportLoop c2Loop 0 :=
  ⟨rfl, rfl, c2_latch_terminator_wins c2Loop 0 c2Latch (termInstr (some 2)) rfl rfl⟩

/-- C3 counterexample: a single loop whose header holds only a debug
instruction and which has no latch emits no record at all, while
1 + its descendant count is 1 — the claimed "exactly N" fails. -/
theorem c3_counterexample_no_anchor :
    (reportLoop c3Loop 0).length = 0 ∧ totalLoops c3Loop = 1 := by
  constructor
  · rfl
  · rfl

/-- C3 amended: `reportLoop` emits exactly one record per
anchor-resolving loop of the subtree, which is at most
1 + the count of transitively nested descendant loops. -/
theorem c3_record_count (L : MLoop) (n : Nat) :
    (reportLoop L n).length = anchoredLoops L ∧ anchoredLoops L ≤ totalLoops L :=
  ⟨length_reportLoop L n, anchoredLoops_le L⟩

/-- C4 counterexample: the very same record value is emitted once with
nest level 1 (for `c4Inner`, forest depth 1) and once with nest level 0
(for `c4Outer`, forest depth 0): the emitted record carries no
nesting-level field from which the loop's depth could be read. -/
theorem c4_counterexample_no_level_field :
    reportAnn c4Outer 0 = [(1, c4Rec), (0, c4Rec)] ∧
    (∃ p q : Nat × DensityRecord, p ∈ reportAnn c4Outer 0 ∧ q ∈ reportAnn c4Outer 0 ∧
      p.2 = q.2 ∧ p.1 = 1 ∧ q.1 = 0) := by
  refine ⟨by decide, ⟨(1, c4Rec), (0, c4Rec), by decide, by decide, rfl, rfl, rfl⟩⟩

/-- C4 amended: records carry no nesting-level field; instead, the
`NestLevel` argument in force when each record is emitted equals the
emitting loop's depth in the loop forest (the post-order enumeration
rooted at depth `d`, with sub-loops at depth one more than their
parent), and erasing the instrumentation recovers the emitted records. -/
theorem c4_nest_level_is_forest_depth (L : MLoop) (d : Nat) :
    reportLoopFull L d = (postorderAnn L d).flatMap
      (fun p => ((densityRecord p.2).map (fun r => (p.1, p.2, r))).toList) ∧
    (reportLoopFull L d).map (fun e => e.2.2) = reportLoop L d :=
  ⟨reportLoopFull_postorder L d, reportLoopFull_erase L d⟩

/-- C5: `runOnMachineFunction` emits only per-loop density records — the
function-level average-fetch-group-size remark is never emitted, the
fetch-group code being unreachable behind the early `return false` —
and the pass reports no change to the function. -/
theorem c5_fetch_group_remark_never_emitted (MF : MachineFunction) :
    (runOnMachineFunction MF).1.all Remark.isDensity = true ∧
    (runOnMachineFunction MF).2 = false := by
  constructor
  · rw [List.all_eq_true]
    intro r hr
    simp only [runOnMachineFunction] at hr
    obtain ⟨d, _, hd⟩ := List.mem_map.mp hr
    rw [← hd]
    rfl
  · rfl

/-- C6: in a loop's emission trace, an entry tagged with the loop itself
can only sit at the very last position; every entry is tagged either
with the loop or with a structurally smaller (descendant) loop, and
erasing the tags gives the emitted records — so all descendant records
precede the loop's own record. -/
theorem c6_children_before_parent (L : MLoop) (d : Nat) :
    (∀ (i : Nat) (hi : i < (reportLoopFull L d).length),
        ((reportLoopFull L d)[i]).2.1 = L → i + 1 = (reportLoopFull L d).length) ∧
    (∀ e ∈ reportLoopFull L d, e.2.1 = L ∨ sizeOf e.2.1 < sizeOf L) ∧
    (reportLoopFull L d).map (fun e => e.2.2) = reportLoop L d := by
  refine ⟨?_, fun e he => mem_reportLoopFull_size L d e he, reportLoopFull_erase L d⟩
  cases L with
  | mk hd bs ls subs =>
    intro i hi heq
    have hsp : reportLoopFull (MLoop.mk hd bs ls subs) d =
        reportLoopsFull subs (d + 1) ++
          ((densityRecord (MLoop.mk hd bs ls subs)).map
            (fun r => (d, MLoop.mk hd bs ls subs, r))).toList := by
      simp [reportLoopFull]
    by_cases hic : i < (reportLoopsFull subs (d + 1)).length
    · exfalso
      have hget : (reportLoopFull (MLoop.mk hd bs ls subs) d)[i] =
          (reportLoopsFull subs (d + 1))[i] := by
        simp only [hsp]
        exact List.getElem_append_left hic
      rw [hget] at heq
      have hmem : (reportLoopsFull subs (d + 1))[i] ∈ reportLoopsFull subs (d + 1) :=
        List.getElem_mem hic
      obtain ⟨c, hc, hce⟩ := mem_reportLoopsFull_size subs (d + 1) _ hmem
      have hcs : sizeOf c < sizeOf (MLoop.mk hd bs ls subs) := by
        have h1 : sizeOf c < sizeOf subs := List.sizeOf_lt_of_mem hc
        have h2 : sizeOf subs < sizeOf (MLoop.mk hd bs ls subs) := by
          simp only [MLoop.mk.sizeOf_spec]
          omega
        omega
      have hlt : sizeOf ((reportLoopsFull subs (d + 1))[i]).2.1
          < sizeOf (MLoop.mk hd bs ls subs) := by
        rcases hce with he | hl
        · rw [he]; exact hcs
        · omega
      rw [heq] at hlt
      omega
    · push_neg at hic
      cases hopt : densityRecord (MLoop.mk hd bs ls subs) with
      | none =>
          exfalso
          have hlen : (reportLoopFull (MLoop.mk hd bs ls subs) d).length
              = (reportLoopsFull subs (d + 1)).length := by
            rw [hsp, hopt]
            simp
          omega
      | some r =>
          have hlen : (reportLoopFull (MLoop.mk hd bs ls subs) d).length
              = (reportLoopsFull subs (d + 1)).length + 1 := by
            rw [hsp, hopt]
            simp
          omega

/-- C6 witness: in the trace of `c4Outer` (two entries: the inner
loop's record first, the outer loop's own record second), the entry
tagged `c4Outer` sits at index 1, the last position. -/
theorem c6_children_before_parent_witness :
    1 + 1 = (reportLoopFull c4Outer 0).length :=
  (c6_children_before_parent c4Outer 0).1 1 (by decide) rfl

/-- C7: for every function and every start block, the fetch-group chain
walk stops on its own once the fuel covers the block count, and its
per-chain visited set never holds a block twice; moreover, when the
start block is its own last-listed successor, it is counted once and
the walk stops right after that one step. -/
theorem c7_chain_walk_terminates (MF : MachineFunction) (i : Nat) :
    (∃ out : Nat × List Nat,
        chainWalk MF (MF.blocks.length + 1) [] i 0 = some out ∧ out.2.Nodup) ∧
    ((blockAt MF i).succs.getLast? = some i →
      chainWalk MF (MF.blocks.length + 1) [] i 0 =
        some ((blockAt MF i).insts.length, [i])) := by
  constructor
  · apply chainWalk_total_aux MF (MF.blocks.length + 1) [] i 0
    · have hfull : ((List.range MF.blocks.length).filter
          (fun k => decide (k ∉ ([] : List Nat)))).length = MF.blocks.length := by
        simp
      omega
    · exact List.nodup_nil
  · intro hself
    have hv : i < MF.blocks.length := by
      by_contra hcon
      push_neg at hcon
      have hdef : blockAt MF i = emptyBB :=
        List.getD_eq_default MF.blocks emptyBB hcon
      rw [hdef] at hself
      simp [emptyBB] at hself
    obtain ⟨m, hm⟩ : ∃ m, MF.blocks.length = m + 1 := ⟨MF.blocks.length - 1, by omega⟩
    rw [hm]
    show chainWalk MF (m + 1 + 1) [] i 0 = some ((blockAt MF i).insts.length, [i])
    simp [chainWalk, hself]

/-- C7 witness: the one-block function whose block is its own last
successor: the walk from it stops with a duplicate-free visited set,
and the self-loop clause gives one visit counting its three
instructions once. -/
theorem c7_chain_walk_terminates_witness :
    (∃ out : Nat × List Nat,
        chainWalk c7MF (c7MF.blocks.length + 1) [] 0 0 = some out ∧ out.2.Nodup) ∧
    chainWalk c7MF (c7MF.blocks.length + 1) [] 0 0 =
      some ((blockAt c7MF 0).insts.length, [0]) :=
  ⟨(c7_chain_walk_terminates c7MF 0).1, (c7_chain_walk_terminates c7MF 0).2 rfl⟩

/-- C8: inserting a debug or pseudo-probe instruction anywhere in a
header leaves `numInsts` and the header anchor candidate unchanged —
and hence the whole emitted record — and the header anchor is never a
debug or pseudo-probe instruction. -/
theorem c8_debug_pseudo_probe_inert (pre post : List Instr) (d : Instr) (s : List Nat)
    (bs ls : List BasicBlock) (subs : List MLoop)
    (hd : (d.isDebugInstr || d.isPseudoProbe) = true) :
    headerCount (pre ++ d :: post) = headerCount (pre ++ post) ∧
    headerAnchor (pre ++ d :: post) = headerAnchor (pre ++ post) ∧
    densityRecord (MLoop.mk ⟨pre ++ d :: post, s⟩ bs ls subs)
      = densityRecord (MLoop.mk ⟨pre ++ post, s⟩ bs ls subs) ∧
    (∀ a : Instr, headerAnchor (pre ++ d :: post) = some a →
      (a.isDebugInstr || a.isPseudoProbe) = false) := by
  have hq : qualifies d = false := by simp [qualifies, hd]
  have hcount : headerCount (pre ++ d :: post) = headerCount (pre ++ post) := by
    simp [headerCount, List.filter_append, List.filter_cons, hq]
  have hanchor : headerAnchor (pre ++ d :: post) = headerAnchor (pre ++ post) := by
    simp [headerAnchor, List.find?_append, List.find?_cons, hq]
  refine ⟨hcount, hanchor, ?_, ?_⟩
  · unfold densityRecord loopAnchor latchAnchor getLoopLatch
    simp only [MLoop.latches, MLoop.header, MLoop.blocks, MLoop.subLoops]
    cases hll : ls.head? with
    | none =>
        cases hha : headerAnchor (pre ++ post) with
        | none => simp [hanchor, hha]
        | some a => simp [hanchor, hha, hcount]
    | some latch =>
        cases hft : (terminators latch).find? (fun mi => mi.debugLoc.isSome) with
        | none =>
            cases hha : headerAnchor (pre ++ post) with
            | none => simp [hft, hanchor, hha]
            | some a => simp [hft, hanchor, hha, hcount]
        | some t => simp [hft, hcount]
  · intro a ha
    have h2 : qualifies a = true := List.find?_some ha
    simp only [qualifies, Bool.not_eq_eq_eq_not, Bool.not_true] at h2
    exact h2

/-- First part of a header for the C8 witness. -/
def c8Pre : List Instr := [mkInstr (some 1)]

/-- Second part of a header for the C8 witness. -/
def c8Post : List Instr := [mkInstr (some 2)]

/-- C8 witness: inserting `dbgInstr` between the two ordinary
instructions changes neither the count nor the anchor, and the anchor
found is not a debug or pseudo-probe instruction. -/
theorem c8_debug_pseudo_probe_inert_witness :
    headerCount (c8Pre ++ dbgInstr :: c8Post) = headerCount (c8Pre ++ c8Post) ∧
    headerAnchor (c8Pre ++ dbgInstr :: c8Post) = headerAnchor (c8Pre ++ c8Post) ∧
    ((mkInstr (some 1)).isDebugInstr || (mkInstr (some 1)).isPseudoProbe) = false :=
  ⟨(c8_debug_pseudo_probe_inert c8Pre c8Post dbgInstr [] [] [] [] (by decide)).1,
   (c8_debug_pseudo_probe_inert c8Pre c8Post dbgInstr [] [] [] [] (by decide)).2.1,
   (c8_debug_pseudo_probe_inert c8Pre c8Post dbgInstr [] [] [] [] (by decide)).2.2.2
     (mkInstr (some 1)) (by decide)⟩

/-- C9: on the four-block straight-line function with ten instructions
per block, the partitioning code forms exactly one fetch group of size
40, contributing `divideCeil 40 16 = 3` to `NumFGs` and 40 to `Sizes`;
each non-entry block has exactly one predecessor and is that
predecessor's last-listed successor. -/
theorem c9_straight_chain_single_group :
    fetchGroupAnalysis c9MF = ⟨[40], 3, 40⟩ ∧
    divideCeil 40 16 = 3 ∧
    (c9MF.blocks.map (fun b => b.insts.length)).sum = 40 ∧
    (predMult c9MF 1).length = 1 ∧ (predMult c9MF 2).length = 1 ∧
    (predMult c9MF 3).length = 1 ∧
    (blockAt c9MF 0).succs.getLast? = some 1 ∧
    (blockAt c9MF 1).succs.getLast? = some 2 ∧
    (blockAt c9MF 2).succs.getLast? = some 3 := by
  decide

/-- C10: a loop with zero qualifying header instructions whose unique
latch has a terminator with a source location does get a record
emitted, with `numInsts = 0`, `bubbles = 0` and `numBlocks` the
member-block count. -/
theorem c10_zero_header_latch_anchor (L : MLoop) (n : Nat) (latch : BasicBlock) (t : Instr)
    (h0 : headerCount L.header.insts = 0)
    (h1 : L.latches = [latch])
    (h2 : (terminators latch).find? (fun mi => mi.debugLoc.isSome) = some t) :
    ∃ r, densityRecord L = some r ∧ r ∈ reportLoop L n ∧
      r.numInsts = 0 ∧ r.bubbles = 0 ∧ r.numBlocks = L.blocks.length := by
  have hl : getLoopLatch L = some latch := by
    unfold getLoopLatch
    rw [h1]
    rfl
  have hla : latchAnchor L = some t := by
    unfold latchAnchor
    rw [hl]
    exact h2
  have hlo : loopAnchor L = some t := by
    unfold loopAnchor
    rw [hla]
  have hrec : densityRecord L =
      some { numBlocks := L.blocks.length,
             numInsts := headerCount L.header.insts,
             bubbles := bubblesOf (headerCount L.header.insts),
             numSubLoops := L.subLoops.length,
             anchorLoc := t.debugLoc } := by
    unfold densityRecord
    rw [hlo]
  refine ⟨_, hrec, self_mem_reportLoop L n _ hrec, h0, ?_, rfl⟩
  show bubblesOf (headerCount L.header.insts) = 0
  rw [h0]
  rfl

/-- C10 witness: `c10Loop` (debug-only header, unique latch with a
located terminator) emits the record `⟨2, 0, 0, 0, some 9⟩`. -/
theorem c10_zero_header_latch_anchor_witness :
    headerCount c10Loop.header.insts = 0 ∧
    c10Loop.latches = [c10Latch] ∧
    (∃ r, densityRecord c10Loop = some r ∧ r ∈ reportLoop c10Loop 0 ∧
      r.numInsts = 0 ∧ r.bubbles = 0 ∧ r.numBlocks = c10Loop.blocks.length) :=
  ⟨by decide, rfl,
   c10_zero_header_latch_anchor c10Loop 0 c10Latch (termInstr (some 9))
     (by decide) rfl (by decide)⟩
